import Mathlib

/-!
Verification of `sequential_backward_selector.py`: a shallow embedding of the
`SequentialBackwardSelector` class and proofs about its `fit` search loop.

Modelling choices:
* `X` is a list of rows of rationals, `y` a list of rationals; `X.shape[1]` is
  the length of the first row.
* The two external collaborators (scikit-learn's `cross_val_score` and the
  estimator's `fit`/`score` methods) are opaque parameters gathered in
  `ScoreEnv`; the estimator's mutable fitted state has an abstract type `ε`.
* Python's `None` for `best_feature_combination` is `Option.none`.  Calling
  `itertools.combinations(None, k)` raises `TypeError`, and a negative `k`
  raises `ValueError`; both are modelled as `Except.error ()`.  State mutated
  before the exception (the appended log records) is kept, as in Python.
* `feature_size` and `reduced_feature_size` are Python ints, so they are
  embedded as `Int` (the loop can step below zero when
  `reduced_feature_size <= 0`).
-/

/-- One entry of the selector's result log `best_features_`: the dict appended
by `_save_score` (keys `featureSize`, `score`, `features`). -/
structure RoundRecord where
  featureSize : Nat
  score : ℚ
  features : Option (List Nat)
deriving DecidableEq

/-- The selector object: the constructor arguments of `__init__` plus the
result log `best_features_` it initializes to `[]`. -/
structure Selector (ε : Type) where
  estimator : ε
  use_cross_val : Bool
  reduced_feature_size : Int
  best_features_ : List RoundRecord
deriving DecidableEq

/-- `SequentialBackwardSelector.__init__(estimator, reduced_feature_size,
use_cross_val)`. -/
def SBSinit (estimator : ε) (reduced_feature_size : Int) (use_cross_val : Bool) :
    Selector ε :=
  { estimator := estimator
    use_cross_val := use_cross_val
    reduced_feature_size := reduced_feature_size
    best_features_ := [] }

/-- The opaque collaborators used by `_score`: `cross_val_score` returns the
list of fold scores, `estimatorFit` is the estimator's `fit` method (returning
its new fitted state), `estimatorScore` its `score` method. -/
structure ScoreEnv (ε : Type) where
  cross_val_score : ε → List (List ℚ) → List ℚ → List ℚ
  estimatorFit : ε → List (List ℚ) → List ℚ → ε
  estimatorScore : ε → List (List ℚ) → List ℚ → ℚ

/-- The state a call to `fit` reads and writes: the selector object and the
argument arrays `X` and `y`. -/
structure FitState (ε : Type) where
  sel : Selector ε
  X : List (List ℚ)
  y : List ℚ
deriving DecidableEq

/-- NumPy advanced indexing `X[:, idxs]`: the new array whose columns are the
selected ones, in the given order. -/
def restrictCols (X : List (List ℚ)) (idxs : List Nat) : List (List ℚ) :=
  X.map (fun row => idxs.map (fun i => row.getD i 0))

/-- `.mean()` of a 1-D array. -/
def mean (l : List ℚ) : ℚ := l.sum / l.length

/-- `itertools.combinations(pool, k)`: every `k`-element subsequence of
`pool`, emitted in lexicographic order of positions (combinations containing
the first element come first). -/
def combinations : List Nat → Nat → List (List Nat)
  | _, 0 => [[]]
  | [], _ + 1 => []
  | x :: xs, k + 1 =>
      (combinations xs k).map (fun c => x :: c) ++ combinations xs (k + 1)

/-- `SequentialBackwardSelector._score` (lines 55-61): with cross-validation,
the mean of the fold scores on the restricted columns; without it, fit the
estimator on the restricted columns (mutating its state) and score it on the
same restricted data. -/
def _score (env : ScoreEnv ε) (st : FitState ε)
    (selected_feature_indexes : List Nat) : ℚ × FitState ε :=
  if st.sel.use_cross_val then
    (mean (env.cross_val_score st.sel.estimator
        (restrictCols st.X selected_feature_indexes) st.y), st)
  else
    let fitted := env.estimatorFit st.sel.estimator
        (restrictCols st.X selected_feature_indexes) st.y
    (env.estimatorScore fitted (restrictCols st.X selected_feature_indexes) st.y,
      { st with sel := { st.sel with estimator := fitted } })

/-- `SequentialBackwardSelector._save_score` (lines 63-68): append one round
record to `best_features_`. -/
def _save_score (st : FitState ε) (num_features : Nat) (best_score : ℚ)
    (best_feature_combination : Option (List Nat)) : FitState ε :=
  { st with sel := { st.sel with best_features_ :=
      st.sel.best_features_ ++
        [{ featureSize := num_features
           score := best_score
           features := best_feature_combination }] } }

/-- The inner `for feature_combination in combinations(...)` loop of `fit`
(lines 45-49): fold the strict-improvement update (`if score > best_score`)
over the enumerated combinations, threading the scoring state. -/
def roundEval (scoreF : σ → List Nat → ℚ × σ) :
    List (List Nat) → σ → ℚ → Option (List Nat) →
      Option (List Nat) × ℚ × σ
  | [], st, best_score, best_comb => (best_comb, best_score, st)
  | c :: cs, st, best_score, best_comb =>
      let r := scoreF st c
      if r.1 > best_score then roundEval scoreF cs r.2 r.1 (some c)
      else roundEval scoreF cs r.2 best_score best_comb

/-- The `while feature_size >= self.reduced_feature_size` loop of `fit`
(lines 41-53).  `pool` is `keep_features`; each iteration resets the best
score to `0` and the best combination to `None`, evaluates every combination,
sets `keep_features` to the winner, appends a record, and decrements
`feature_size`.  A `none` pool or a negative `feature_size` makes
`itertools.combinations` raise, which aborts the loop with the log as
mutated so far. -/
def fitLoop (env : ScoreEnv ε) (rfs : Int) (fs : Int) (pool : Option (List Nat))
    (st : FitState ε) : FitState ε × Except Unit Unit :=
  if fs < rfs then (st, Except.ok ())
  else
    match pool with
    | none => (st, Except.error ())
    | some p =>
      if fs < 0 then (st, Except.error ())
      else
        let r := roundEval (_score env) (combinations p fs.toNat) st 0 none
        fitLoop env rfs (fs - 1) r.1 (_save_score r.2.2 fs.toNat r.2.1 r.1)
termination_by (fs + 1 - rfs).toNat
decreasing_by omega

/-- `SequentialBackwardSelector.fit(X, y)` (lines 21-53):
`feature_size = X.shape[1]`, `keep_features = range(feature_size)`, then the
round loop. -/
def fit (env : ScoreEnv ε) (st : FitState ε) : FitState ε × Except Unit Unit :=
  fitLoop env st.sel.reduced_feature_size ((st.X.headD []).length : Int)
    (some (List.range (st.X.headD []).length)) st

/-- Replace the selector's result log, leaving everything else unchanged. -/
def withLog (st : FitState ε) (l : List RoundRecord) : FitState ε :=
  { st with sel := { st.sel with best_features_ := l } }

/-- The scoring policy as the specification states it, written independently
of `_score`: with cross-validation, invoke the Cross-Validator on the model,
the column-restricted matrix and the labels and take the mean of the fold
scores; without it, fit the model on the restricted matrix and labels and
return its score on that same restricted data, together with the new fitted
model state. -/
def scorePolicySpec (env : ScoreEnv ε) (useCV : Bool) (est : ε)
    (X : List (List ℚ)) (y : List ℚ) (idxs : List Nat) : ℚ × ε :=
  match useCV with
  | true => (mean (env.cross_val_score est (restrictCols X idxs) y), est)
  | false =>
      let fitted := env.estimatorFit est (restrictCols X idxs) y
      (env.estimatorScore fitted (restrictCols X idxs) y, fitted)

/-- The shape invariant linking a round's pool to the records the remaining
rounds append: a record with a set `features` field holds a combination drawn
from the pool (a subsequence of it, of length `featureSize`), which becomes
the pool of the next round; a record with `features = none` is the last
record, because the next round aborts before appending anything. -/
def chainOK : List Nat → List RoundRecord → Prop
  | _, [] => True
  | p, r :: rs =>
      (r.features = none → rs = []) ∧
        ∀ c, r.features = some c →
          c.Sublist p ∧ c.length = r.featureSize ∧ chainOK c rs

/-- Everything except the estimator and the result log: the arrays `X` and
`y` and the configuration fields. -/
def sameCore (st st' : FitState ε) : Prop :=
  st'.X = st.X ∧ st'.y = st.y ∧
    st'.sel.use_cross_val = st.sel.use_cross_val ∧
    st'.sel.reduced_feature_size = st.sel.reduced_feature_size

/-- A fuel-indexed structural mirror of `fitLoop`, used only to evaluate the
well-founded recursion on concrete inputs inside kernel-checked proofs
(`fitLoopFuel_sound` below shows it agrees with `fitLoop` whenever the fuel
exceeds the number of remaining rounds). -/
def fitLoopFuel (env : ScoreEnv ε) (rfs : Int) :
    Nat → Int → Option (List Nat) → FitState ε →
      Option (FitState ε × Except Unit Unit)
  | 0, _, _, _ => none
  | fuel + 1, fs, pool, st =>
    if fs < rfs then some (st, Except.ok ())
    else
      match pool with
      | none => some (st, Except.error ())
      | some p =>
        if fs < 0 then some (st, Except.error ())
        else
          let r := roundEval (_score env) (combinations p fs.toNat) st 0 none
          fitLoopFuel env rfs fuel (fs - 1) r.1
            (_save_score r.2.2 fs.toNat r.2.1 r.1)

/-- Concrete estimator-free environment whose cross-validation always returns
the single fold score `q`. -/
def cvConst (q : ℚ) : ScoreEnv Unit :=
  { cross_val_score := fun _ _ _ => [q]
    estimatorFit := fun _ _ _ => ()
    estimatorScore := fun _ _ _ => 0 }

/-- Concrete environment whose cross-validation scores `1` exactly on the
column restrictions `[[10, 20]]` and `[[10, 30]]` of the one-row matrix
`[[10, 20, 30]]`, producing a tie between two combinations. -/
def cvTie : ScoreEnv Unit :=
  { cross_val_score := fun _ Xr _ =>
      [if Xr = [[10, 20]] ∨ Xr = [[10, 30]] then 1 else 0]
    estimatorFit := fun _ _ _ => ()
    estimatorScore := fun _ _ _ => 0 }

/-- Concrete selector state: cross-validation on, floor `rfs`, data `X`,
labels `[0]`, fresh (empty) log. -/
def mkSt (rfs : Int) (X : List (List ℚ)) : FitState Unit :=
  { sel := SBSinit () rfs true, X := X, y := [0] }

/-! ### Unfolding lemmas for the `while` loop -/

theorem fitLoop_stop (env : ScoreEnv ε) (rfs fs : Int) (pool : Option (List Nat))
    (st : FitState ε) (h : fs < rfs) :
    fitLoop env rfs fs pool st = (st, Except.ok ()) := by
  rw [fitLoop.eq_def]
  simp [h]

theorem fitLoop_none (env : ScoreEnv ε) (rfs fs : Int) (st : FitState ε)
    (h : ¬ fs < rfs) :
    fitLoop env rfs fs none st = (st, Except.error ()) := by
  rw [fitLoop.eq_def]
  simp [h]

theorem fitLoop_neg (env : ScoreEnv ε) (rfs fs : Int) (p : List Nat)
    (st : FitState ε) (h : ¬ fs < rfs) (h' : fs < 0) :
    fitLoop env rfs fs (some p) st = (st, Except.error ()) := by
  rw [fitLoop.eq_def]
  simp [h, h']

theorem fitLoop_go (env : ScoreEnv ε) (rfs fs : Int) (p : List Nat)
    (st : FitState ε) (h : ¬ fs < rfs) (h' : ¬ fs < 0) :
    fitLoop env rfs fs (some p) st =
      fitLoop env rfs (fs - 1)
        (roundEval (_score env) (combinations p fs.toNat) st 0 none).1
        (_save_score (roundEval (_score env) (combinations p fs.toNat) st 0 none).2.2
          fs.toNat
          (roundEval (_score env) (combinations p fs.toNat) st 0 none).2.1
          (roundEval (_score env) (combinations p fs.toNat) st 0 none).1) := by
  rw [fitLoop.eq_def]
  simp [h, h']

/-! ### Facts about `combinations` -/

theorem mem_combinations_sublist :
    ∀ (p : List Nat) (k : Nat) (c : List Nat),
      c ∈ combinations p k → c.Sublist p := by
  intro p
  induction p with
  | nil =>
    intro k c hc
    cases k with
    | zero => simp [combinations] at hc; simp [hc]
    | succ k => simp [combinations] at hc
  | cons x xs ih =>
    intro k c hc
    cases k with
    | zero => simp [combinations] at hc; simp [hc]
    | succ k =>
      rw [combinations] at hc
      rcases List.mem_append.mp hc with h | h
      · rcases List.mem_map.mp h with ⟨c', hc', rfl⟩
        exact List.Sublist.cons₂ x (ih k c' hc')
      · exact List.Sublist.cons x (ih (k + 1) c h)

theorem mem_combinations_length :
    ∀ (p : List Nat) (k : Nat) (c : List Nat),
      c ∈ combinations p k → c.length = k := by
  intro p
  induction p with
  | nil =>
    intro k c hc
    cases k with
    | zero => simp [combinations] at hc; simp [hc]
    | succ k => simp [combinations] at hc
  | cons x xs ih =>
    intro k c hc
    cases k with
    | zero => simp [combinations] at hc; simp [hc]
    | succ k =>
      rw [combinations] at hc
      rcases List.mem_append.mp hc with h | h
      · rcases List.mem_map.mp h with ⟨c', hc', rfl⟩
        simp [ih k c' hc']
      · exact ih (k + 1) c h

/-! ### Facts about the inner round loop -/

theorem roundEval_best_mem (scoreF : σ → List Nat → ℚ × σ) :
    ∀ (cs : List (List Nat)) (st : σ) (bs : ℚ) (bc : Option (List Nat))
      (c : List Nat), (roundEval scoreF cs st bs bc).1 = some c →
        c ∈ cs ∨ bc = some c := by
  intro cs
  induction cs with
  | nil => intro st bs bc c h; exact Or.inr h
  | cons d cs ih =>
    intro st bs bc c h
    rw [roundEval] at h
    by_cases hgt : (scoreF st d).1 > bs
    · rw [if_pos hgt] at h
      rcases ih _ _ _ _ h with h' | h'
      · exact Or.inl (List.mem_cons_of_mem d h')
      · rcases Option.some.inj h' with rfl
        exact Or.inl (List.mem_cons_self d cs)
    · rw [if_neg hgt] at h
      rcases ih _ _ _ _ h with h' | h'
      · exact Or.inl (List.mem_cons_of_mem d h')
      · exact Or.inr h'

theorem roundEval_fix (scoreF : σ → List Nat → ℚ × σ) (st : σ)
    (hst : ∀ c, (scoreF st c).2 = st) :
    ∀ (cs : List (List Nat)) (bs : ℚ) (bc : Option (List Nat)),
      (∀ c ∈ cs, (scoreF st c).1 ≤ bs) →
      roundEval scoreF cs st bs bc = (bc, bs, st) := by
  intro cs
  induction cs with
  | nil => intro bs bc _; rfl
  | cons d cs ih =>
    intro bs bc hle
    rw [roundEval]
    have hd : (scoreF st d).1 ≤ bs := hle d (List.mem_cons_self d cs)
    rw [if_neg (by exact not_lt.mpr hd)]
    rw [hst d]
    exact ih bs bc (fun c hc => hle c (List.mem_cons_of_mem d hc))

theorem roundEval_first_argmax (scoreF : σ → List Nat → ℚ × σ) (st : σ)
    (hst : ∀ c, (scoreF st c).2 = st) (M : ℚ) :
    ∀ (cs : List (List Nat)) (bs : ℚ) (bc : Option (List Nat)), bs < M →
      (∀ c ∈ cs, (scoreF st c).1 ≤ M) →
      ∀ (i : Nat) (hi : i < cs.length), (scoreF st (cs.get ⟨i, hi⟩)).1 = M →
      (∀ (j : Nat) (hj : j < cs.length), j < i →
        (scoreF st (cs.get ⟨j, hj⟩)).1 < M) →
      (roundEval scoreF cs st bs bc).1 = some (cs.get ⟨i, hi⟩) := by
  intro cs
  induction cs with
  | nil => intro bs bc _ _ i hi; exact absurd hi (by simp)
  | cons d cs ih =>
    intro bs bc hbs hub i hi hmax hfirst
    cases i with
    | zero =>
      have hd : (scoreF st d).1 = M := hmax
      rw [roundEval, if_pos (by rw [hd]; exact hbs), hst d, hd]
      have hfix := roundEval_fix scoreF st hst cs M (some d)
        (fun c hc => hub c (List.mem_cons_of_mem d hc))
      rw [hfix]
      rfl
    | succ i =>
      have hd : (scoreF st d).1 < M :=
        hfirst 0 (by simp) (Nat.succ_pos i)
      have hi' : i < cs.length := Nat.lt_of_succ_lt_succ hi
      have hmax' : (scoreF st (cs.get ⟨i, hi'⟩)).1 = M := hmax
      have hfirst' : ∀ (j : Nat) (hj : j < cs.length), j < i →
          (scoreF st (cs.get ⟨j, hj⟩)).1 < M := by
        intro j hj hji
        exact hfirst (j + 1) (Nat.succ_lt_succ hj) (Nat.succ_lt_succ hji)
      have hub' : ∀ c ∈ cs, (scoreF st c).1 ≤ M :=
        fun c hc => hub c (List.mem_cons_of_mem d hc)
      rw [roundEval]
      by_cases hgt : (scoreF st d).1 > bs
      · rw [if_pos hgt, hst d]
        exact ih (scoreF st d).1 (some d) hd hub' i hi' hmax' hfirst'
      · rw [if_neg hgt, hst d]
        exact ih bs bc hbs hub' i hi' hmax' hfirst'

/-! ### Frame lemmas: what each operation leaves untouched -/

theorem sameCore_refl (st : FitState ε) : sameCore st st :=
  ⟨rfl, rfl, rfl, rfl⟩

theorem sameCore_trans {st₁ st₂ st₃ : FitState ε}
    (h₁ : sameCore st₁ st₂) (h₂ : sameCore st₂ st₃) : sameCore st₁ st₃ :=
  ⟨h₂.1.trans h₁.1, h₂.2.1.trans h₁.2.1, h₂.2.2.1.trans h₁.2.2.1,
    h₂.2.2.2.trans h₁.2.2.2⟩

theorem _score_frame (env : ScoreEnv ε) (st : FitState ε) (c : List Nat) :
    sameCore st ((_score env st c).2) ∧
      ((_score env st c).2).sel.best_features_ = st.sel.best_features_ := by
  by_cases h : st.sel.use_cross_val <;>
    simp [_score, h, sameCore]

theorem _save_score_frame (st : FitState ε) (k : Nat) (s : ℚ)
    (b : Option (List Nat)) : sameCore st (_save_score st k s b) := by
  simp [_save_score, sameCore]

theorem roundEval_frame (env : ScoreEnv ε) :
    ∀ (cs : List (List Nat)) (st : FitState ε) (bs : ℚ)
      (bc : Option (List Nat)),
      sameCore st ((roundEval (_score env) cs st bs bc).2.2) ∧
        ((roundEval (_score env) cs st bs bc).2.2).sel.best_features_ =
          st.sel.best_features_ := by
  intro cs
  induction cs with
  | nil => intro st bs bc; exact ⟨sameCore_refl st, rfl⟩
  | cons d cs ih =>
    intro st bs bc
    have hs := _score_frame env st d
    rw [roundEval]
    by_cases h : (_score env st d).1 > bs
    · rw [if_pos h]
      have hr := ih ((_score env st d).2) (_score env st d).1 (some d)
      exact ⟨sameCore_trans hs.1 hr.1, hr.2.trans hs.2⟩
    · rw [if_neg h]
      have hr := ih ((_score env st d).2) bs bc
      exact ⟨sameCore_trans hs.1 hr.1, hr.2.trans hs.2⟩

theorem fitLoop_frame (env : ScoreEnv ε) (rfs : Int) :
    ∀ (j : Nat) (fs : Int), (fs + 1 - rfs).toNat = j →
      ∀ (pool : Option (List Nat)) (st : FitState ε),
        sameCore st ((fitLoop env rfs fs pool st).1) := by
  intro j
  induction j with
  | zero =>
    intro fs hj pool st
    rw [fitLoop_stop env rfs fs pool st (by omega)]
    exact sameCore_refl st
  | succ j ih =>
    intro fs hj pool st
    have hge : ¬ fs < rfs := by omega
    match pool with
    | none =>
      rw [fitLoop_none env rfs fs st hge]
      exact sameCore_refl st
    | some p =>
      by_cases hneg : fs < 0
      · rw [fitLoop_neg env rfs fs p st hge hneg]
        exact sameCore_refl st
      · rw [fitLoop_go env rfs fs p st hge hneg]
        have hr := roundEval_frame env (combinations p fs.toNat) st 0 none
        have hsv := _save_score_frame
          ((roundEval (_score env) (combinations p fs.toNat) st 0 none).2.2)
          fs.toNat
          (roundEval (_score env) (combinations p fs.toNat) st 0 none).2.1
          (roundEval (_score env) (combinations p fs.toNat) st 0 none).1
        have hrec := ih (fs - 1) (by omega)
          (roundEval (_score env) (combinations p fs.toNat) st 0 none).1
          (_save_score
            ((roundEval (_score env) (combinations p fs.toNat) st 0 none).2.2)
            fs.toNat
            (roundEval (_score env) (combinations p fs.toNat) st 0 none).2.1
            (roundEval (_score env) (combinations p fs.toNat) st 0 none).1)
        exact sameCore_trans (sameCore_trans hr.1 hsv) hrec

/-! ### The pool/record chain invariant of the search -/

theorem chainOK_all_sublist :
    ∀ (recs : List RoundRecord) (p : List Nat), chainOK p recs →
      ∀ r ∈ recs, ∀ c, r.features = some c → c.Sublist p := by
  intro recs
  induction recs with
  | nil => intro p _ r hr; cases hr
  | cons a rs ih =>
    intro p hch r hr c hc
    rcases List.mem_cons.mp hr with rfl | hr
    · exact (hch.2 c hc).1
    · cases ha : a.features with
      | none =>
        rw [hch.1 ha] at hr
        cases hr
      | some ca =>
        obtain ⟨hsub, _, hch'⟩ := hch.2 ca ha
        exact (ih ca hch' r hr c hc).trans hsub

theorem chainOK_lengths :
    ∀ (recs : List RoundRecord) (p : List Nat), chainOK p recs →
      ∀ r ∈ recs, ∀ c, r.features = some c → c.length = r.featureSize := by
  intro recs
  induction recs with
  | nil => intro p _ r hr; cases hr
  | cons a rs ih =>
    intro p hch r hr c hc
    rcases List.mem_cons.mp hr with rfl | hr
    · exact (hch.2 c hc).2.1
    · cases ha : a.features with
      | none =>
        rw [hch.1 ha] at hr
        cases hr
      | some ca =>
        obtain ⟨_, _, hch'⟩ := hch.2 ca ha
        exact ih ca hch' r hr c hc

theorem chainOK_chain' :
    ∀ (recs : List RoundRecord) (p : List Nat), chainOK p recs →
      List.Chain'
        (fun a b => ∀ x ∈ b.features.getD [], x ∈ a.features.getD []) recs := by
  intro recs
  induction recs with
  | nil => intro p _; exact List.chain'_nil
  | cons a rs ih =>
    intro p hch
    cases ha : a.features with
    | none =>
      rw [hch.1 ha]
      exact List.chain'_singleton a
    | some ca =>
      obtain ⟨_, _, hch'⟩ := hch.2 ca ha
      refine List.chain'_cons'.mpr ⟨?_, ih ca hch'⟩
      intro b hb x hx
      rw [ha, Option.getD_some]
      cases rs with
      | nil => cases hb
      | cons b' rs' =>
        rcases Option.some.inj hb.symm with rfl
        cases hbf : b.features with
        | none => rw [hbf] at hx; cases hx
        | some cb =>
          rw [hbf, Option.getD_some] at hx
          exact (hch'.2 cb hbf).1.subset hx

theorem fitLoop_chainOK (env : ScoreEnv ε) (rfs : Int) :
    ∀ (j : Nat) (fs : Int), (fs + 1 - rfs).toNat = j →
      ∀ (p : List Nat) (st : FitState ε),
        ∃ new, ((fitLoop env rfs fs (some p) st).1).sel.best_features_ =
            st.sel.best_features_ ++ new ∧ chainOK p new := by
  intro j
  induction j with
  | zero =>
    intro fs hj p st
    rw [fitLoop_stop env rfs fs (some p) st (by omega)]
    exact ⟨[], by simp, trivial⟩
  | succ j ih =>
    intro fs hj p st
    have hge : ¬ fs < rfs := by omega
    by_cases hneg : fs < 0
    · rw [fitLoop_neg env rfs fs p st hge hneg]
      exact ⟨[], by simp, trivial⟩
    · rw [fitLoop_go env rfs fs p st hge hneg]
      set R := roundEval (_score env) (combinations p fs.toNat) st 0 none with hRdef
      have hRlog : (R.2.2).sel.best_features_ = st.sel.best_features_ :=
        (roundEval_frame env (combinations p fs.toNat) st 0 none).2
      cases hbc : R.1 with
      | none =>
        by_cases hstop : fs - 1 < rfs
        · rw [fitLoop_stop env rfs (fs - 1) none _ hstop]
          refine ⟨[{ featureSize := fs.toNat, score := R.2.1, features := none }],
            ?_, ?_⟩
          · simp [_save_score, hRlog]
          · exact ⟨fun _ => rfl, fun c hc => by cases hc⟩
        · rw [fitLoop_none env rfs (fs - 1) _ hstop]
          refine ⟨[{ featureSize := fs.toNat, score := R.2.1, features := none }],
            ?_, ?_⟩
          · simp [_save_score, hRlog]
          · exact ⟨fun _ => rfl, fun c hc => by cases hc⟩
      | some c =>
        have hmem : c ∈ combinations p fs.toNat := by
          rcases roundEval_best_mem (_score env) (combinations p fs.toNat)
            st 0 none c hbc with h | h
          · exact h
          · cases h
        obtain ⟨new', hlog', hch'⟩ := ih (fs - 1) (by omega) c
          (_save_score R.2.2 fs.toNat R.2.1 (some c))
        refine ⟨RoundRecord.mk fs.toNat R.2.1 (some c) :: new', ?_, ?_⟩
        · rw [hlog']
          simp [_save_score, hRlog]
        · simp only [chainOK]
          refine ⟨(fun h => nomatch h), fun c' hc' => ?_⟩
          rcases Option.some.inj hc' with rfl
          exact ⟨mem_combinations_sublist p fs.toNat c hmem,
            mem_combinations_length p fs.toNat c hmem, hch'⟩

/-! ### Shape of the featureSize sequence -/

theorem fitLoop_sizes (env : ScoreEnv ε) (rfs : Int) (h1 : 1 ≤ rfs) :
    ∀ (j : Nat) (fs : Int), (fs + 1 - rfs).toNat = j →
      ∀ (p : List Nat) (st : FitState ε),
        ∃ new, ((fitLoop env rfs fs (some p) st).1).sel.best_features_ =
            st.sel.best_features_ ++ new ∧
          ((∀ rec ∈ new, rec.features.isSome = true) →
            new.map (fun r => r.featureSize) =
              (List.range' rfs.toNat ((fs + 1 - rfs).toNat)).reverse) := by
  intro j
  induction j with
  | zero =>
    intro fs hj p st
    rw [fitLoop_stop env rfs fs (some p) st (by omega)]
    exact ⟨[], by simp, fun _ => by rw [hj]; simp⟩
  | succ j ih =>
    intro fs hj p st
    have hge : ¬ fs < rfs := by omega
    have hneg : ¬ fs < 0 := by omega
    rw [fitLoop_go env rfs fs p st hge hneg]
    set R := roundEval (_score env) (combinations p fs.toNat) st 0 none with hRdef
    have hRlog : (R.2.2).sel.best_features_ = st.sel.best_features_ :=
      (roundEval_frame env (combinations p fs.toNat) st 0 none).2
    cases hbc : R.1 with
    | none =>
      by_cases hstop : fs - 1 < rfs
      · rw [fitLoop_stop env rfs (fs - 1) none _ hstop]
        refine ⟨[RoundRecord.mk fs.toNat R.2.1 none], by simp [_save_score, hRlog],
          fun hset => ?_⟩
        have := hset (RoundRecord.mk fs.toNat R.2.1 none) (by simp)
        simp at this
      · rw [fitLoop_none env rfs (fs - 1) _ hstop]
        refine ⟨[RoundRecord.mk fs.toNat R.2.1 none], by simp [_save_score, hRlog],
          fun hset => ?_⟩
        have := hset (RoundRecord.mk fs.toNat R.2.1 none) (by simp)
        simp at this
    | some c =>
      obtain ⟨new', hlog', hmap'⟩ := ih (fs - 1) (by omega) c
        (_save_score R.2.2 fs.toNat R.2.1 (some c))
      refine ⟨RoundRecord.mk fs.toNat R.2.1 (some c) :: new', ?_, fun hset => ?_⟩
      · rw [hlog']
        simp [_save_score, hRlog]
      · have hmap := hmap' (fun rec hrec =>
          hset rec (List.mem_cons_of_mem _ hrec))
        have hm : (fs - 1 + 1 - rfs).toNat + 1 = (fs + 1 - rfs).toNat := by omega
        rw [List.map_cons, hmap, ← hm, List.range'_concat]
        have hlast : rfs.toNat + 1 * (fs - 1 + 1 - rfs).toNat = fs.toNat := by omega
        rw [hlast, List.reverse_append]
        simp

/-! ### The result log is threaded, never read: shifting the initial log -/

theorem withLog_withLog (st : FitState ε) (l m : List RoundRecord) :
    withLog (withLog st m) l = withLog st l := rfl

theorem withLog_log (st : FitState ε) (l : List RoundRecord) :
    (withLog st l).sel.best_features_ = l := rfl

theorem withLog_self (st : FitState ε) :
    withLog st st.sel.best_features_ = st := rfl

theorem _score_withLog (env : ScoreEnv ε) (st : FitState ε)
    (l : List RoundRecord) (c : List Nat) :
    _score env (withLog st l) c =
      ((_score env st c).1, withLog ((_score env st c).2) l) := by
  by_cases h : st.sel.use_cross_val <;>
    simp [_score, withLog, h]

theorem _save_score_withLog (st : FitState ε) (l : List RoundRecord)
    (k : Nat) (s : ℚ) (b : Option (List Nat)) :
    _save_score (withLog st l) k s b =
      withLog st (l ++ [RoundRecord.mk k s b]) := by
  simp [_save_score, withLog]

theorem roundEval_withLog (env : ScoreEnv ε) (l : List RoundRecord) :
    ∀ (cs : List (List Nat)) (st : FitState ε) (bs : ℚ)
      (bc : Option (List Nat)),
      roundEval (_score env) cs (withLog st l) bs bc =
        ((roundEval (_score env) cs st bs bc).1,
         (roundEval (_score env) cs st bs bc).2.1,
         withLog ((roundEval (_score env) cs st bs bc).2.2) l) := by
  intro cs
  induction cs with
  | nil => intro st bs bc; rfl
  | cons d cs ih =>
    intro st bs bc
    rw [roundEval, roundEval]
    rw [_score_withLog env st l d]
    by_cases h : (_score env st d).1 > bs
    · rw [if_pos h, if_pos h]
      exact ih ((_score env st d).2) (_score env st d).1 (some d)
    · rw [if_neg h, if_neg h]
      exact ih ((_score env st d).2) bs bc

theorem fitLoop_withLog (env : ScoreEnv ε) (rfs : Int) :
    ∀ (j : Nat) (fs : Int), (fs + 1 - rfs).toNat = j →
      ∀ (pool : Option (List Nat)) (st : FitState ε)
        (l m : List RoundRecord),
        fitLoop env rfs fs pool (withLog st (l ++ m)) =
          (withLog (fitLoop env rfs fs pool (withLog st m)).1
            (l ++ ((fitLoop env rfs fs pool (withLog st m)).1).sel.best_features_),
           (fitLoop env rfs fs pool (withLog st m)).2) := by
  intro j
  induction j with
  | zero =>
    intro fs hj pool st l m
    rw [fitLoop_stop env rfs fs pool _ (by omega),
      fitLoop_stop env rfs fs pool _ (by omega)]
    rw [withLog_withLog, withLog_log]
  | succ j ih =>
    intro fs hj pool st l m
    have hge : ¬ fs < rfs := by omega
    match pool with
    | none =>
      rw [fitLoop_none env rfs fs _ hge, fitLoop_none env rfs fs _ hge]
      rw [withLog_withLog, withLog_log]
    | some p =>
      by_cases hneg : fs < 0
      · rw [fitLoop_neg env rfs fs p _ hge hneg,
          fitLoop_neg env rfs fs p _ hge hneg]
        rw [withLog_withLog, withLog_log]
      · rw [fitLoop_go env rfs fs p _ hge hneg,
          fitLoop_go env rfs fs p _ hge hneg]
        rw [roundEval_withLog env (l ++ m) (combinations p fs.toNat) st 0 none,
          roundEval_withLog env m (combinations p fs.toNat) st 0 none]
        rw [_save_score_withLog, _save_score_withLog]
        rw [List.append_assoc]
        exact ih (fs - 1) (by omega)
          (roundEval (_score env) (combinations p fs.toNat) st 0 none).1
          ((roundEval (_score env) (combinations p fs.toNat) st 0 none).2.2) l
          (m ++ [RoundRecord.mk fs.toNat
            (roundEval (_score env) (combinations p fs.toNat) st 0 none).2.1
            (roundEval (_score env) (combinations p fs.toNat) st 0 none).1])

/-! ### Soundness of the fuel-indexed evaluator -/

theorem fitLoopFuel_sound (env : ScoreEnv ε) (rfs : Int) :
    ∀ (fuel : Nat) (fs : Int) (pool : Option (List Nat)) (st : FitState ε),
      (fs + 1 - rfs).toNat < fuel →
      fitLoopFuel env rfs fuel fs pool st = some (fitLoop env rfs fs pool st) := by
  intro fuel
  induction fuel with
  | zero => intro fs pool st h; omega
  | succ fuel ih =>
    intro fs pool st h
    match pool with
    | none =>
      by_cases h1 : fs < rfs
      · rw [fitLoop_stop env rfs fs none st h1]
        simp [fitLoopFuel, h1]
      · rw [fitLoop_none env rfs fs st h1]
        simp [fitLoopFuel, h1]
    | some p =>
      by_cases h1 : fs < rfs
      · rw [fitLoop_stop env rfs fs (some p) st h1]
        simp [fitLoopFuel, h1]
      · by_cases h2 : fs < 0
        · rw [fitLoop_neg env rfs fs p st h1 h2]
          simp [fitLoopFuel, h1, h2]
        · rw [fitLoop_go env rfs fs p st h1 h2]
          have hrec := ih (fs - 1)
            (roundEval (_score env) (combinations p fs.toNat) st 0 none).1
            (_save_score
              ((roundEval (_score env) (combinations p fs.toNat) st 0 none).2.2)
              fs.toNat
              ((roundEval (_score env) (combinations p fs.toNat) st 0 none).2.1)
              ((roundEval (_score env) (combinations p fs.toNat) st 0 none).1))
            (by omega)
          rw [← hrec]
          simp [fitLoopFuel, h1, h2]

theorem fitLoop_by_fuel (env : ScoreEnv ε) (rfs fs : Int)
    (pool : Option (List Nat)) (st : FitState ε) (fuel : Nat)
    (v : FitState ε × Except Unit Unit)
    (hfuel : (fs + 1 - rfs).toNat < fuel)
    (hev : fitLoopFuel env rfs fuel fs pool st = some v) :
    fitLoop env rfs fs pool st = v := by
  have hs := fitLoopFuel_sound env rfs fuel fs pool st hfuel
  rw [hs] at hev
  exact Option.some.inj hev

theorem fit_by_fuel (env : ScoreEnv ε) (st : FitState ε) (fuel : Nat)
    (v : FitState ε × Except Unit Unit)
    (hfuel : (((st.X.headD []).length : Int) + 1 -
      st.sel.reduced_feature_size).toNat < fuel)
    (hev : fitLoopFuel env st.sel.reduced_feature_size fuel
      ((st.X.headD []).length : Int)
      (some (List.range (st.X.headD []).length)) st = some v) :
    fit env st = v :=
  fitLoop_by_fuel env st.sel.reduced_feature_size _ _ st fuel v hfuel hev

/-! ### The claims -/

/-- C4: the score of a feature combination is computed as follows: if
`use_cross_val` is true, the Cross-Validator is invoked with the model, `X`
restricted to the combination's columns, and `y`, and the mean of the
returned fold scores is taken; if `use_cross_val` is false, the model is
fitted on the restricted `X` and `y` (its state becoming the fitted state)
and the score is the model's score on that same restricted `X` and `y`.
Stated as: `_score` computes exactly the policy `scorePolicySpec`
transcribed from the specification, and touches nothing but the estimator. -/
theorem claim_C4 (env : ScoreEnv ε) (st : FitState ε) (idxs : List Nat) :
    (_score env st idxs).1 =
      (scorePolicySpec env st.sel.use_cross_val st.sel.estimator
        st.X st.y idxs).1 ∧
    ((_score env st idxs).2).sel.estimator =
      (scorePolicySpec env st.sel.use_cross_val st.sel.estimator
        st.X st.y idxs).2 ∧
    ((_score env st idxs).2).X = st.X ∧
    ((_score env st idxs).2).y = st.y ∧
    ((_score env st idxs).2).sel.best_features_ = st.sel.best_features_ := by
  cases h : st.sel.use_cross_val <;>
    simp [_score, scorePolicySpec, h]

/-- C5 (amended): if `reduced_feature_size` exceeds `n_features`, `fit`
executes no rounds at all: the loop condition is never satisfied, no error
is raised and zero Round Records are produced.  (The original claim also
covered violations of the lower bound `reduced_feature_size >= 1`; those do
NOT no-op — see `claim_C5_counterexample`.) -/
theorem claim_C5 (env : ScoreEnv ε) (st : FitState ε)
    (h : ((st.X.headD []).length : Int) < st.sel.reduced_feature_size) :
    fit env st = (st, Except.ok ()) :=
  fitLoop_stop env st.sel.reduced_feature_size ((st.X.headD []).length : Int)
    (some (List.range (st.X.headD []).length)) st h

/-- C5 counterexample: with `reduced_feature_size = 0` the constraint
`n_features >= reduced_feature_size >= 1` is violated, yet on a one-feature
matrix with an always-1 scoring collaborator `fit` executes two rounds and
produces two Round Records, not zero. -/
theorem claim_C5_counterexample :
    ¬(1 ≤ (mkSt 0 [[5]]).sel.reduced_feature_size) ∧
    ((fit (cvConst 1) (mkSt 0 [[5]])).1).sel.best_features_.length = 2 := by
  have hv : fit (cvConst 1) (mkSt 0 [[5]]) =
      ({ sel := { estimator := (), use_cross_val := true,
                  reduced_feature_size := 0,
                  best_features_ := [RoundRecord.mk 1 1 (some [0]),
                                     RoundRecord.mk 0 1 (some [])] },
         X := [[5]], y := [0] }, Except.ok ()) :=
    fit_by_fuel (cvConst 1) (mkSt 0 [[5]]) 5 _ (by decide)
      (by with_unfolding_all rfl)
  exact ⟨by decide, by rw [hv]; rfl⟩

/-- C5 witness: with 3 features and `reduced_feature_size = 5` the amended
claim applies: `fit` returns at once with no error and an unchanged state. -/
theorem claim_C5_witness :
    (((mkSt 5 [[1, 2, 3]]).X.headD []).length : Int) <
      (mkSt 5 [[1, 2, 3]]).sel.reduced_feature_size ∧
    fit (cvConst 1) (mkSt 5 [[1, 2, 3]]) = (mkSt 5 [[1, 2, 3]], Except.ok ()) :=
  ⟨by decide, claim_C5 (cvConst 1) (mkSt 5 [[1, 2, 3]]) (by decide)⟩

/-- C7: `fit` never mutates the input Feature Matrix `X` or Label Vector
`y`: the state it returns carries them unchanged (it only reads them through
fresh column-restricted copies). -/
theorem claim_C7 (env : ScoreEnv ε) (st : FitState ε) :
    ((fit env st).1).X = st.X ∧ ((fit env st).1).y = st.y := by
  have h := fitLoop_frame env st.sel.reduced_feature_size
    ((((st.X.headD []).length : Int) + 1 - st.sel.reduced_feature_size).toNat)
    ((st.X.headD []).length : Int) rfl
    (some (List.range (st.X.headD []).length)) st
  exact ⟨h.1, h.2.1⟩

/-- C8: the result log is instance-scoped and append-only.  `__init__`
starts it empty; a call to `fit` leaves the previously accumulated records
in place and appends the records of the new run after them, so re-invoking
`fit` does not clear the log: the log after a call on a selector whose log
holds the first run's records is those records followed by exactly the
records the same call appends to a cleared-log copy of the selector. -/
theorem claim_C8 (env : ScoreEnv ε) (st : FitState ε) (est : ε)
    (rfs : Int) (ucv : Bool) :
    (SBSinit est rfs ucv).best_features_ = [] ∧
    ((fit env st).1).sel.best_features_ =
      st.sel.best_features_ ++
        ((fit env (withLog st [])).1).sel.best_features_ := by
  refine ⟨rfl, ?_⟩
  have h := fitLoop_withLog env st.sel.reduced_feature_size
    ((((st.X.headD []).length : Int) + 1 - st.sel.reduced_feature_size).toNat)
    ((st.X.headD []).length : Int) rfl
    (some (List.range (st.X.headD []).length)) st
    st.sel.best_features_ []
  rw [List.append_nil, withLog_self] at h
  have hfit : fit env st = fitLoop env st.sel.reduced_feature_size
      ((st.X.headD []).length : Int)
      (some (List.range (st.X.headD []).length)) st := rfl
  have hfit0 : fit env (withLog st []) =
      fitLoop env st.sel.reduced_feature_size
        ((st.X.headD []).length : Int)
        (some (List.range (st.X.headD []).length)) (withLog st []) := rfl
  rw [hfit, hfit0, h]
  rw [withLog_log]

/-- C1: for every call to `fit` on a matrix with `n` columns, with
`1 <= reduced_feature_size <= n`, where every round yields a best
combination (no appended record has an unset `features` field), the sequence
of Round Records appended has exactly `n - reduced_feature_size + 1`
entries, whose `featureSize` fields are exactly
`n, n - 1, ..., reduced_feature_size` in that strictly decreasing order
(the reversal of `List.range' reduced_feature_size (n - rfs + 1)`). -/
theorem claim_C1 (env : ScoreEnv ε) (st : FitState ε) (n rfs : Nat)
    (hrfs1 : 1 ≤ rfs) (hrfsn : rfs ≤ n)
    (hX : (st.X.headD []).length = n)
    (hsel : st.sel.reduced_feature_size = (rfs : Int))
    (hlog : st.sel.best_features_ = [])
    (hset : ∀ rec ∈ ((fit env st).1).sel.best_features_,
      rec.features.isSome = true) :
    ((fit env st).1).sel.best_features_.length = n - rfs + 1 ∧
    ((fit env st).1).sel.best_features_.map (fun r => r.featureSize) =
      (List.range' rfs (n - rfs + 1)).reverse := by
  have h1 : (1 : Int) ≤ st.sel.reduced_feature_size := by
    rw [hsel]; exact_mod_cast hrfs1
  obtain ⟨new, hlog', hmap⟩ := fitLoop_sizes env st.sel.reduced_feature_size h1
    ((((st.X.headD []).length : Int) + 1 - st.sel.reduced_feature_size).toNat)
    ((st.X.headD []).length : Int) rfl
    (List.range (st.X.headD []).length) st
  have hfit : ((fit env st).1).sel.best_features_ =
      st.sel.best_features_ ++ new := hlog'
  rw [hlog, List.nil_append] at hfit
  rw [hfit] at hset ⊢
  have hmap2 := hmap hset
  have hco : ((((st.X.headD []).length : Int)) + 1 -
      st.sel.reduced_feature_size).toNat = n - rfs + 1 := by
    rw [hsel, hX]; omega
  have hco2 : st.sel.reduced_feature_size.toNat = rfs := by
    rw [hsel]; omega
  rw [hco, hco2] at hmap2
  refine ⟨?_, hmap2⟩
  have hlen := congrArg List.length hmap2
  simpa using hlen

/-- C1 witness: two features, floor 1, constant fold score 1: both rounds
set a best combination and the two appended records carry featureSize 2
then 1. -/
theorem claim_C1_witness :
    (∀ rec ∈ ((fit (cvConst 1) (mkSt 1 [[0, 0]])).1).sel.best_features_,
      rec.features.isSome = true) ∧
    ((fit (cvConst 1) (mkSt 1 [[0, 0]])).1).sel.best_features_.length =
      2 - 1 + 1 ∧
    ((fit (cvConst 1) (mkSt 1 [[0, 0]])).1).sel.best_features_.map
      (fun r => r.featureSize) = (List.range' 1 (2 - 1 + 1)).reverse := by
  have hv : fit (cvConst 1) (mkSt 1 [[0, 0]]) =
      ({ sel := { estimator := (), use_cross_val := true,
                  reduced_feature_size := 1,
                  best_features_ := [RoundRecord.mk 2 1 (some [0, 1]),
                                     RoundRecord.mk 1 1 (some [0])] },
         X := [[0, 0]], y := [0] }, Except.ok ()) :=
    fit_by_fuel (cvConst 1) (mkSt 1 [[0, 0]]) 5 _ (by decide)
      (by with_unfolding_all rfl)
  have h := claim_C1 (cvConst 1) (mkSt 1 [[0, 0]]) 2 1 (by decide) (by decide)
    rfl rfl rfl (by rw [hv]; decide)
  exact ⟨by rw [hv]; decide, h.1, h.2⟩

/-- C2: under the precondition that every round's best combination is set,
every Round Record produced by `fit` (from a fresh log) has a `features`
tuple whose length equals its `featureSize` field, consecutive records have
`features` contained in the `features` of the immediately preceding record
(the candidate pool shrinks monotonically), and the first record's
`features` lie within the full index range `0 .. n_features - 1`. -/
theorem claim_C2 (env : ScoreEnv ε) (st : FitState ε)
    (hlog : st.sel.best_features_ = [])
    (hset : ∀ rec ∈ ((fit env st).1).sel.best_features_,
      rec.features.isSome = true) :
    (∀ rec ∈ ((fit env st).1).sel.best_features_,
      (rec.features.getD []).length = rec.featureSize) ∧
    List.Chain' (fun a b => ∀ x ∈ b.features.getD [], x ∈ a.features.getD [])
      ((fit env st).1).sel.best_features_ ∧
    (∀ rec, (((fit env st).1).sel.best_features_).head? = some rec →
      ∀ x ∈ rec.features.getD [], x < (st.X.headD []).length) := by
  obtain ⟨new, hlog', hch⟩ := fitLoop_chainOK env st.sel.reduced_feature_size
    ((((st.X.headD []).length : Int) + 1 - st.sel.reduced_feature_size).toNat)
    ((st.X.headD []).length : Int) rfl
    (List.range (st.X.headD []).length) st
  have hfit : ((fit env st).1).sel.best_features_ =
      st.sel.best_features_ ++ new := hlog'
  rw [hlog, List.nil_append] at hfit
  rw [hfit] at hset ⊢
  refine ⟨?_, ?_, ?_⟩
  · intro rec hrec
    obtain ⟨c, hc⟩ := Option.isSome_iff_exists.mp (hset rec hrec)
    rw [hc, Option.getD_some]
    exact chainOK_lengths new (List.range (st.X.headD []).length) hch rec hrec
      c hc
  · exact chainOK_chain' new (List.range (st.X.headD []).length) hch
  · intro rec hhead x hx
    have hrec : rec ∈ new := List.mem_of_mem_head? hhead
    obtain ⟨c, hc⟩ := Option.isSome_iff_exists.mp (hset rec hrec)
    rw [hc, Option.getD_some] at hx
    have hsub := chainOK_all_sublist new (List.range (st.X.headD []).length)
      hch rec hrec c hc
    exact List.mem_range.mp (hsub.subset hx)

/-- C2 witness: two features, floor 1, constant fold score 1: both records
have set features of the right length, the second round's combination `[0]`
is contained in the first round's `[0, 1]`, and `[0, 1]` lies within the
index range of the two columns. -/
theorem claim_C2_witness :
    (∀ rec ∈ ((fit (cvConst 1) (mkSt 1 [[3, 4]])).1).sel.best_features_,
      rec.features.isSome = true) ∧
    (∀ rec ∈ ((fit (cvConst 1) (mkSt 1 [[3, 4]])).1).sel.best_features_,
      (rec.features.getD []).length = rec.featureSize) ∧
    List.Chain' (fun a b => ∀ x ∈ b.features.getD [], x ∈ a.features.getD [])
      ((fit (cvConst 1) (mkSt 1 [[3, 4]])).1).sel.best_features_ ∧
    (∀ rec, (((fit (cvConst 1) (mkSt 1 [[3, 4]])).1).sel.best_features_).head? =
        some rec →
      ∀ x ∈ rec.features.getD [],
        x < ((mkSt 1 [[3, 4]]).X.headD []).length) := by
  have hv : fit (cvConst 1) (mkSt 1 [[3, 4]]) =
      ({ sel := { estimator := (), use_cross_val := true,
                  reduced_feature_size := 1,
                  best_features_ := [RoundRecord.mk 2 1 (some [0, 1]),
                                     RoundRecord.mk 1 1 (some [0])] },
         X := [[3, 4]], y := [0] }, Except.ok ()) :=
    fit_by_fuel (cvConst 1) (mkSt 1 [[3, 4]]) 5 _ (by decide)
      (by with_unfolding_all rfl)
  have h := claim_C2 (cvConst 1) (mkSt 1 [[3, 4]]) rfl (by rw [hv]; decide)
  exact ⟨by rw [hv]; decide, h.1, h.2.1, h.2.2⟩

/-- C10: every Round Record produced by `fit` (from a fresh log) whose
`features` field is set contains a strictly increasing tuple of distinct
feature indices drawn from `0 .. n_features - 1`: the initial pool is the
increasing range of column indices and combination enumeration preserves
pool order, so recorded combinations are in canonical sorted order with no
duplicates. -/
theorem claim_C10 (env : ScoreEnv ε) (st : FitState ε)
    (hlog : st.sel.best_features_ = []) :
    ∀ rec ∈ ((fit env st).1).sel.best_features_, ∀ c, rec.features = some c →
      List.Sorted (fun a b => a < b) c ∧ c.Nodup ∧
        ∀ x ∈ c, x < (st.X.headD []).length := by
  obtain ⟨new, hlog', hch⟩ := fitLoop_chainOK env st.sel.reduced_feature_size
    ((((st.X.headD []).length : Int) + 1 - st.sel.reduced_feature_size).toNat)
    ((st.X.headD []).length : Int) rfl
    (List.range (st.X.headD []).length) st
  have hfit : ((fit env st).1).sel.best_features_ =
      st.sel.best_features_ ++ new := hlog'
  rw [hlog, List.nil_append] at hfit
  rw [hfit]
  intro rec hrec c hc
  have hsub := chainOK_all_sublist new (List.range (st.X.headD []).length)
    hch rec hrec c hc
  have hsorted : List.Sorted (fun a b => a < b) c :=
    List.Pairwise.sublist hsub (List.pairwise_lt_range _)
  refine ⟨hsorted, List.Pairwise.imp (fun h => Nat.ne_of_lt h) hsorted, ?_⟩
  intro x hx
  exact List.mem_range.mp (hsub.subset hx)

/-- C10 witness: on the two-column run, the first recorded combination
`[0, 1]` is strictly increasing, duplicate-free and within range. -/
theorem claim_C10_witness :
    List.Sorted (fun a b => a < b) [0, 1] ∧ List.Nodup [0, 1] ∧
      ∀ x ∈ [0, 1], x < ((mkSt 1 [[7, 8]]).X.headD []).length := by
  have hv : fit (cvConst 1) (mkSt 1 [[7, 8]]) =
      ({ sel := { estimator := (), use_cross_val := true,
                  reduced_feature_size := 1,
                  best_features_ := [RoundRecord.mk 2 1 (some [0, 1]),
                                     RoundRecord.mk 1 1 (some [0])] },
         X := [[7, 8]], y := [0] }, Except.ok ()) :=
    fit_by_fuel (cvConst 1) (mkSt 1 [[7, 8]]) 5 _ (by decide)
      (by with_unfolding_all rfl)
  exact claim_C10 (cvConst 1) (mkSt 1 [[7, 8]]) rfl
    (RoundRecord.mk 2 1 (some [0, 1])) (by rw [hv]; decide) [0, 1] rfl

/-- C3: within a round (cross-validation mode, so scoring leaves the state
unchanged), combinations are evaluated in the enumeration order of
`combinations` (itertools' lexicographic order) and the first combination
achieving the maximum score wins: the comparison is strict `>`, so a later
combination whose score equals the current best does not replace it.  In
particular, if the scoring function gives the maximal score `M > 0` to the
combination at position `i` and strictly less to every earlier one, the
round selects exactly that combination, regardless of later ties. -/
theorem claim_C3 (env : ScoreEnv ε) (st : FitState ε)
    (hucv : st.sel.use_cross_val = true)
    (p : List Nat) (k : Nat) (M : ℚ) (i : Nat)
    (hi : i < (combinations p k).length)
    (hM : 0 < M)
    (hub : ∀ c ∈ combinations p k, (_score env st c).1 ≤ M)
    (hmax : (_score env st ((combinations p k).get ⟨i, hi⟩)).1 = M)
    (hfirst : ∀ (j : Nat) (hj : j < (combinations p k).length), j < i →
      (_score env st ((combinations p k).get ⟨j, hj⟩)).1 < M) :
    (roundEval (_score env) (combinations p k) st 0 none).1 =
      some ((combinations p k).get ⟨i, hi⟩) := by
  have hst : ∀ c, (_score env st c).2 = st := fun c => by simp [_score, hucv]
  exact roundEval_first_argmax (_score env) st hst M (combinations p k) 0 none
    hM hub i hi hmax hfirst

/-- C3 witness: on the pool `[0, 1, 2]` with `k = 2` the environment `cvTie`
scores the combinations `[0, 1]` and `[0, 2]` identically (both 1) and
`[1, 2]` with 0; the lexicographically first of the tied pair, `[0, 1]`,
is selected. -/
theorem claim_C3_witness :
    (_score cvTie (mkSt 1 [[10, 20, 30]]) [0, 1]).1 =
      (_score cvTie (mkSt 1 [[10, 20, 30]]) [0, 2]).1 ∧
    (roundEval (_score cvTie) (combinations [0, 1, 2] 2)
      (mkSt 1 [[10, 20, 30]]) 0 none).1 = some [0, 1] := by
  constructor
  · with_unfolding_all rfl
  · have h := claim_C3 cvTie (mkSt 1 [[10, 20, 30]]) rfl [0, 1, 2] 2 1 0
      (by decide) (by norm_num)
      (by with_unfolding_all decide)
      (by with_unfolding_all rfl)
      (fun j hj hji => absurd hji (Nat.not_lt_zero j))
    exact h

/-- C6: each round starts from a best-score baseline of 0 and a null best
combination; if every combination evaluated in a round (cross-validation
mode) scores at most 0, the best combination remains null, and the
subsequent round — which exists since `reduced_feature_size <= fs - 1` —
enumerates combinations over a null pool, aborting the search with an
error rather than failing fast or terminating cleanly. -/
theorem claim_C6 (env : ScoreEnv ε) (st : FitState ε) (p : List Nat)
    (rfs fs : Int) (hucv : st.sel.use_cross_val = true)
    (h1 : 1 ≤ rfs) (h2 : rfs ≤ fs - 1)
    (hall : ∀ c ∈ combinations p fs.toNat, (_score env st c).1 ≤ 0) :
    (roundEval (_score env) (combinations p fs.toNat) st 0 none).1 = none ∧
    (fitLoop env rfs fs (some p) st).2 = Except.error () := by
  have hst : ∀ c, (_score env st c).2 = st := fun c => by simp [_score, hucv]
  have hfix := roundEval_fix (_score env) st hst (combinations p fs.toNat)
    0 none hall
  refine ⟨by rw [hfix], ?_⟩
  rw [fitLoop_go env rfs fs p st (by omega) (by omega)]
  simp only [hfix]
  rw [fitLoop_none env rfs (fs - 1) _ (by omega)]

/-- C6 witness: two features, floor 1, all fold scores 0: the first round
keeps a null best combination and the run aborts with an error. -/
theorem claim_C6_witness :
    (∀ c ∈ combinations [0, 1] (2 : Int).toNat,
      (_score (cvConst 0) (mkSt 1 [[1, 2]]) c).1 ≤ 0) ∧
    (roundEval (_score (cvConst 0)) (combinations [0, 1] (2 : Int).toNat)
      (mkSt 1 [[1, 2]]) 0 none).1 = none ∧
    (fitLoop (cvConst 0) 1 2 (some [0, 1]) (mkSt 1 [[1, 2]])).2 =
      Except.error () := by
  have h := claim_C6 (cvConst 0) (mkSt 1 [[1, 2]]) [0, 1] 1 2 rfl
    (by norm_num) (by norm_num)
    (of_decide_eq_true (by with_unfolding_all rfl))
  exact ⟨of_decide_eq_true (by with_unfolding_all rfl), h.1, h.2⟩

/-- C9: in a round (cross-validation mode) where every combination scores at
most 0 and a subsequent round exists, a Round Record is nevertheless
appended to the log before the next round's failure, and that record has
score 0 and `features = none` — so the log ends with a record whose
`features` field is not a combination and whose tuple length (0, via the
empty default) differs from its `featureSize` field. -/
theorem claim_C9 (env : ScoreEnv ε) (st : FitState ε) (p : List Nat)
    (rfs fs : Int) (hucv : st.sel.use_cross_val = true)
    (h1 : 1 ≤ rfs) (h2 : rfs ≤ fs - 1)
    (hall : ∀ c ∈ combinations p fs.toNat, (_score env st c).1 ≤ 0) :
    ((fitLoop env rfs fs (some p) st).1).sel.best_features_ =
      st.sel.best_features_ ++ [RoundRecord.mk fs.toNat 0 none] ∧
    (fitLoop env rfs fs (some p) st).2 = Except.error () ∧
    ((RoundRecord.mk fs.toNat 0 none).features.getD []).length ≠
      (RoundRecord.mk fs.toNat 0 none).featureSize := by
  have hst : ∀ c, (_score env st c).2 = st := fun c => by simp [_score, hucv]
  have hfix := roundEval_fix (_score env) st hst (combinations p fs.toNat)
    0 none hall
  rw [fitLoop_go env rfs fs p st (by omega) (by omega)]
  simp only [hfix]
  rw [fitLoop_none env rfs (fs - 1) _ (by omega)]
  refine ⟨?_, rfl, ?_⟩
  · simp [_save_score]
  · show ((none : Option (List Nat)).getD []).length ≠ fs.toNat
    simp only [Option.getD_none, List.length_nil]
    omega

/-- C9 witness: two features, floor 1, all fold scores 0: the aborted run's
log holds exactly one record, with featureSize 2, score 0 and unset
features. -/
theorem claim_C9_witness :
    (∀ c ∈ combinations [0, 1] (2 : Int).toNat,
      (_score (cvConst 0) (mkSt 1 [[3, 4]]) c).1 ≤ 0) ∧
    ((fitLoop (cvConst 0) 1 2 (some [0, 1]) (mkSt 1 [[3, 4]])).1).sel.best_features_ =
      (mkSt 1 [[3, 4]]).sel.best_features_ ++ [RoundRecord.mk (2 : Int).toNat 0 none] ∧
    (fitLoop (cvConst 0) 1 2 (some [0, 1]) (mkSt 1 [[3, 4]])).2 =
      Except.error () := by
  have h := claim_C9 (cvConst 0) (mkSt 1 [[3, 4]]) [0, 1] 1 2 rfl
    (by norm_num) (by norm_num)
    (of_decide_eq_true (by with_unfolding_all rfl))
  exact ⟨of_decide_eq_true (by with_unfolding_all rfl), h.1, h.2.1⟩
